import Mathlib

/-!
Verification of the SparkScraper idea-processing core
(`sparkscraper_enhanced.py`, class `IdeaProcessor`, with the static
configuration of `config.py`) against its natural-language specification.

Text is modelled as `List Char`.  Python string operations are embedded
character by character; the ASCII fragments of the regex classes `\w` and
`\s` are used (the pipeline's own configuration and test data are ASCII).
The stateful duplicate detector (`self.seen_ideas`) is embedded by explicit
state passing: each operation takes the current fingerprint set (a list)
and returns the updated one.
-/

namespace SparkScraper

/-- Text is a list of characters. -/
abbrev Text := List Char

/-- Python regex `\s` / `str.split()` whitespace (ASCII fragment):
space, tab, newline, carriage return, vertical tab, form feed. -/
def isSpace (c : Char) : Bool :=
  c = ' ' || c = '\t' || c = '\n' || c = '\r' || c = '\x0b' || c = '\x0c'

/-- Python regex `\w` (ASCII fragment): letters, digits and underscore. -/
def isWordChar (c : Char) : Bool :=
  c.isAlphanum || c = '_'

/-- The characters kept by the substitution `re.sub(r'[^\w\s\.\!\?\-]', '', text)`
in `IdeaProcessor.clean_text`: word characters, whitespace, `.`, `!`, `?`, `-`. -/
def keepChar (c : Char) : Bool :=
  isWordChar c || isSpace c || c = '.' || c = '!' || c = '?' || c = '-'

/-- A character matched by the body of the URL regex
`(?:[a-zA-Z]|[0-9]|[$-_@.&+]|[!*\\(\\),]|(?:%[0-9a-fA-F][0-9a-fA-F]))+` in
`IdeaProcessor.clean_text`.  `[$-_@.&+]` is the byte range 0x24..0x5F plus
`@ . & +` (already inside the range); the `%hh` alternative adds no character
outside the union of the single-character alternatives. -/
def urlChar (c : Char) : Bool :=
  c.isAlpha || c.isDigit || (0x24 ≤ c.toNat && c.toNat ≤ 0x5F) ||
    c = '!' || c = '*' || c = '\\' || c = '(' || c = ')' || c = ','

/-- Attempt to match the URL regex `http[s]?://(?:...)+` at the head of `l`
(as Python `re` does at each scan position: literal `http`, greedy optional
`s`, literal `://`, then a maximal non-empty run of `urlChar`).  Returns the
remainder after the match, or `none` when the regex does not match here. -/
def matchUrlAt (l : Text) : Option Text :=
  if "https://".data.isPrefixOf l then
    let rest := l.drop 8
    if (rest.takeWhile urlChar).isEmpty then none
    else some (rest.dropWhile urlChar)
  else if "http://".data.isPrefixOf l then
    let rest := l.drop 7
    if (rest.takeWhile urlChar).isEmpty then none
    else some (rest.dropWhile urlChar)
  else none

/-- Left-to-right scan of `re.sub(url_regex, '', text)`: at each position try
to match the URL regex; on a match drop it and resume after it, otherwise
keep the character and move on.  `fuel` bounds the recursion (each step
consumes at least one character, so `fuel = l.length` suffices); it makes
the definition structural and hence kernel-computable. -/
def removeURLsAux : Nat → Text → Text
  | 0, l => l
  | _ + 1, [] => []
  | fuel + 1, c :: cs =>
    match matchUrlAt (c :: cs) with
    | some rest => removeURLsAux fuel rest
    | none => c :: removeURLsAux fuel cs

/-- `re.sub(r'http[s]?://(?:...)+', '', text)` — the URL-removal pass of
`IdeaProcessor.clean_text`. -/
def removeURLs (l : Text) : Text :=
  removeURLsAux l.length l

/-- Accumulator-based splitter behind `pySplit`.  `cur` holds the current
word reversed. -/
def splitWSAux : Text → Text → List Text
  | cur, [] => if cur.isEmpty then [] else [cur.reverse]
  | cur, c :: cs =>
    if isSpace c then
      if cur.isEmpty then splitWSAux [] cs
      else cur.reverse :: splitWSAux [] cs
    else splitWSAux (c :: cur) cs

/-- Python `str.split()` with no argument: split on runs of whitespace,
discarding empty words. -/
def pySplit (l : Text) : List Text :=
  splitWSAux [] l

/-- Python `' '.join(words)`. -/
def joinWords : List Text → Text
  | [] => []
  | [w] => w
  | w :: ws => w ++ ' ' :: joinWords ws

/-- Python `str.lstrip()` (drop leading whitespace). -/
def lstrip (l : Text) : Text := l.dropWhile isSpace

/-- Python `str.rstrip()` (drop trailing whitespace). -/
def rstrip (l : Text) : Text := (l.reverse.dropWhile isSpace).reverse

/-- Python `str.strip()`. -/
def strip (l : Text) : Text := rstrip (lstrip l)

/-- `IdeaProcessor.clean_text`: remove URLs, remove the characters outside
`[\w\s.!?-]`, normalize whitespace with `' '.join(text.split())`, and strip. -/
def clean_text (text : Text) : Text :=
  let noUrl := removeURLs text
  let noSpecial := noUrl.filter keepChar
  let normalized := joinWords (pySplit noSpecial)
  strip normalized

/-- Python `str.lower()` (ASCII fragment, via `Char.toLower`). -/
def toLowerText (t : Text) : Text := t.map Char.toLower

/-- The duplicate-detection fingerprint of `IdeaProcessor.is_duplicate`:
`hashlib.md5(idea.lower().encode()).hexdigest()`.  The md5 digest step is
modelled as the identity on the case-folded text (an injective model of the
digest); the case folding is kept. -/
def fingerprint (t : Text) : Text := toLowerText t

/-- `IdeaProcessor.is_duplicate`: look the fingerprint up in the seen set;
if present report a duplicate, otherwise record it.  The seen set
(`self.seen_ideas`) is passed and returned explicitly. -/
def is_duplicate (seen : List Text) (idea : Text) : Bool × List Text :=
  let h := fingerprint idea
  if h ∈ seen then (true, seen)
  else (false, h :: seen)

/-- `SparkScraperConfig.MIN_WORD_COUNT`. -/
def MIN_WORD_COUNT : Nat := 5

/-- `SparkScraperConfig.MAX_WORD_COUNT`. -/
def MAX_WORD_COUNT : Nat := 200

/-- `SparkScraperConfig.EXCLUDED_WORDS`. -/
def EXCLUDED_WORDS : List String :=
  ["spam", "advertisement", "promotion", "buy now", "click here",
   "limited time", "offer", "discount", "sale"]

/-- `SparkScraperConfig.IDEA_CATEGORIES`, in its declared (insertion) order. -/
def IDEA_CATEGORIES : List (String × List String) :=
  [("web_app", ["web", "app", "website", "platform", "dashboard"]),
   ("mobile_app", ["mobile", "ios", "android", "app store"]),
   ("ai_ml", ["ai", "machine learning", "artificial intelligence", "neural network"]),
   ("fintech", ["finance", "payment", "banking", "investment", "crypto"]),
   ("healthcare", ["health", "medical", "fitness", "wellness"]),
   ("education", ["learning", "education", "course", "tutorial"]),
   ("productivity", ["productivity", "automation", "workflow", "efficiency"]),
   ("social", ["social", "community", "network", "connection"]),
   ("ecommerce", ["shop", "store", "marketplace", "retail"]),
   ("gaming", ["game", "gaming", "entertainment", "play"])]

/-- Python `pat in hay` (substring containment). -/
def hasSubstr : Text → Text → Bool
  | hay, pat =>
    match hay with
    | [] => pat.isEmpty
    | _ :: t => pat.isPrefixOf hay || hasSubstr t pat

/-- Word count as computed by `filter_idea`: `len(idea.split())`. -/
def countWords (t : Text) : Nat := (pySplit t).length

/-- The excluded-phrase check of `filter_idea`:
`any(excluded in idea_lower for excluded in EXCLUDED_WORDS)`. -/
def hasBlacklisted (idea : Text) : Bool :=
  EXCLUDED_WORDS.any fun w => hasSubstr (toLowerText idea) w.data

/-- The stateless part of `filter_idea`'s criteria (word-count bounds and
blacklist); everything it checks before invoking `is_duplicate`. -/
def passesContentChecks (idea : Text) : Bool :=
  !(countWords idea < MIN_WORD_COUNT || MAX_WORD_COUNT < countWords idea)
    && !hasBlacklisted idea

/-- `IdeaProcessor.filter_idea`: reject on word count outside
`[MIN_WORD_COUNT, MAX_WORD_COUNT]`, then on a blacklisted phrase, then on a
duplicate (this last step consults and updates the seen set via
`is_duplicate`). -/
def filter_idea (seen : List Text) (idea : Text) : Bool × List Text :=
  if countWords idea < MIN_WORD_COUNT || MAX_WORD_COUNT < countWords idea then
    (false, seen)
  else if hasBlacklisted idea then
    (false, seen)
  else
    let r := is_duplicate seen idea
    if r.1 then (false, r.2) else (true, r.2)

/-- One category's match test in `categorize_idea`:
`any(keyword in idea_lower for keyword in keywords)`. -/
def categoryMatches (idea : Text) (p : String × List String) : Bool :=
  p.2.any fun kw => hasSubstr (toLowerText idea) kw.data

/-- `IdeaProcessor.categorize_idea`: collect, in the taxonomy's declared
order, every category one of whose keywords occurs in the lowered text;
fall back to `["general"]` when none matches. -/
def categorize_idea (idea : Text) : List String :=
  let matched := IDEA_CATEGORIES.filter (categoryMatches idea)
  if matched.isEmpty then ["general"] else matched.map Prod.fst

/-- `IdeaProcessor.analyze_sentiment`.  The external polarity estimator
(TextBlob, a third-party library outside this repository) is abstracted as a
fallible function; per the spec it is a black box returning a continuous
polarity, modelled with rational values.  The wrapper returns the estimate on
success and `0` on any failure (the `except: return 0.0` branch). -/
def analyze_sentiment (estimator : Text → Except Unit Rat) (idea : Text) : Rat :=
  match estimator idea with
  | Except.ok p => p
  | Except.error _ => 0

/-- One output record of `process_ideas`.  The wall-clock `timestamp` field
is omitted (real time is outside the model); all other fields are kept. -/
structure ProcessedIdea where
  text : Text
  source : String
  categories : List String
  sentiment : Rat
  word_count : Nat
deriving DecidableEq, Repr

/-- `IdeaProcessor.process_ideas`: clean each candidate, drop it when
`filter_idea` rejects it, otherwise emit the structured record.  The seen
set is threaded through and returned alongside the output list. -/
def process_ideas (estimator : Text → Except Unit Rat) :
    List Text → String → List Text → List ProcessedIdea × List Text
  | [], _, seen => ([], seen)
  | idea :: rest, source, seen =>
    let cleaned := clean_text idea
    let r := filter_idea seen cleaned
    let next := process_ideas estimator rest source r.2
    if r.1 then
      ({ text := cleaned
         source := source
         categories := categorize_idea cleaned
         sentiment := analyze_sentiment estimator cleaned
         word_count := countWords cleaned } :: next.1, next.2)
    else
      next

/-- A constant neutral estimator, used to instantiate concrete runs. -/
def constEstimator : Text → Except Unit Rat := fun _ => Except.ok 0

/-! ### Lemmas about the whitespace tokenizer -/

theorem splitWSAux_nil (cur : Text) :
    splitWSAux cur [] = if cur.isEmpty then [] else [cur.reverse] := by
  simp [splitWSAux]

theorem splitWSAux_cons_space {c : Char} (h : isSpace c = true) (cur cs : Text) :
    splitWSAux cur (c :: cs) =
      if cur.isEmpty then splitWSAux [] cs else cur.reverse :: splitWSAux [] cs := by
  simp [splitWSAux, h]

theorem splitWSAux_cons_word {c : Char} (h : isSpace c = false) (cur cs : Text) :
    splitWSAux cur (c :: cs) = splitWSAux (c :: cur) cs := by
  simp [splitWSAux, h]

theorem splitWSAux_words (l : Text) : ∀ (cur : Text), (∀ c ∈ cur, isSpace c = false) →
    ∀ w ∈ splitWSAux cur l, w ≠ [] ∧ ∀ c ∈ w, isSpace c = false := by
  induction l with
  | nil =>
    intro cur hcur w hw
    rw [splitWSAux_nil] at hw
    cases cur with
    | nil => simp at hw
    | cons a as =>
      simp at hw
      subst hw
      refine ⟨by simp, fun c hc => hcur c ?_⟩
      simp only [List.mem_append, List.mem_reverse, List.mem_singleton] at hc
      rcases hc with h | h
      · exact List.mem_cons_of_mem _ h
      · exact h ▸ List.mem_cons_self _ _
  | cons c cs ih =>
    intro cur hcur w hw
    by_cases hs : isSpace c
    · rw [splitWSAux_cons_space hs] at hw
      cases cur with
      | nil => simpa using ih [] (by simp) w (by simpa using hw)
      | cons a as =>
        simp only [List.isEmpty_cons, if_false, List.mem_cons, Bool.false_eq_true] at hw
        rcases hw with hw | hw
        · subst hw
          refine ⟨by simp, fun d hd => hcur d (List.mem_reverse.mp hd)⟩
        · exact ih [] (by simp) w hw
    · rw [splitWSAux_cons_word (by simpa using hs)] at hw
      refine ih (c :: cur) ?_ w hw
      intro d hd
      rcases List.mem_cons.mp hd with h | h
      · subst h; simpa using hs
      · exact hcur d h

theorem splitWSAux_subset (l : Text) : ∀ (cur : Text),
    ∀ w ∈ splitWSAux cur l, ∀ c ∈ w, c ∈ cur ∨ c ∈ l := by
  induction l with
  | nil =>
    intro cur w hw c hc
    rw [splitWSAux_nil] at hw
    cases cur with
    | nil => simp at hw
    | cons a as =>
      simp at hw
      subst hw
      simp only [List.mem_append, List.mem_reverse, List.mem_singleton] at hc
      rcases hc with h | h
      · exact Or.inl (List.mem_cons_of_mem _ h)
      · exact Or.inl (h ▸ List.mem_cons_self _ _)
  | cons a as ih =>
    intro cur w hw c hc
    by_cases hs : isSpace a
    · rw [splitWSAux_cons_space hs] at hw
      cases cur with
      | nil =>
        simp only [List.isEmpty_nil, if_true] at hw
        rcases ih [] w hw c hc with h | h
        · simp at h
        · exact Or.inr (List.mem_cons_of_mem _ h)
      | cons b bs =>
        simp only [List.isEmpty_cons, if_false, List.mem_cons, Bool.false_eq_true] at hw
        rcases hw with hw | hw
        · subst hw
          exact Or.inl (List.mem_reverse.mp hc)
        · rcases ih [] w hw c hc with h | h
          · simp at h
          · exact Or.inr (List.mem_cons_of_mem _ h)
    · rw [splitWSAux_cons_word (by simpa using hs)] at hw
      rcases ih (a :: cur) w hw c hc with h | h
      · rcases List.mem_cons.mp h with h | h
        · subst h; exact Or.inr (List.mem_cons_self _ _)
        · exact Or.inl h
      · exact Or.inr (List.mem_cons_of_mem _ h)

theorem splitWSAux_all_space (t : Text) : ∀ (cur : Text), (∀ c ∈ t, isSpace c = true) →
    splitWSAux cur t = if cur.isEmpty then [] else [cur.reverse] := by
  induction t with
  | nil => intro cur _; exact splitWSAux_nil cur
  | cons c cs ih =>
    intro cur ht
    have hc : isSpace c = true := ht c (List.mem_cons_self _ _)
    have hcs : ∀ d ∈ cs, isSpace d = true := fun d hd => ht d (List.mem_cons_of_mem _ hd)
    rw [splitWSAux_cons_space hc, ih [] hcs]
    cases cur <;> simp

theorem splitWSAux_append_space (X : Text) : ∀ (cur t : Text), (∀ c ∈ t, isSpace c = true) →
    splitWSAux cur (X ++ t) = splitWSAux cur X := by
  induction X with
  | nil =>
    intro cur t ht
    rw [List.nil_append, splitWSAux_all_space t cur ht, splitWSAux_nil]
  | cons c cs ih =>
    intro cur t ht
    rw [List.cons_append]
    by_cases hs : isSpace c
    · rw [splitWSAux_cons_space hs, splitWSAux_cons_space hs, ih [] t ht]
    · rw [splitWSAux_cons_word (by simpa using hs), splitWSAux_cons_word (by simpa using hs),
        ih (c :: cur) t ht]

theorem splitWSAux_space_pre (t : Text) : ∀ (l : Text), (∀ c ∈ t, isSpace c = true) →
    splitWSAux [] (t ++ l) = splitWSAux [] l := by
  induction t with
  | nil => intro l _; rw [List.nil_append]
  | cons c cs ih =>
    intro l ht
    have hc : isSpace c = true := ht c (List.mem_cons_self _ _)
    rw [List.cons_append, splitWSAux_cons_space hc]
    simp only [List.isEmpty_nil, if_true]
    exact ih l fun d hd => ht d (List.mem_cons_of_mem _ hd)

theorem splitWSAux_word_pre (w : Text) : ∀ (cur rest : Text), (∀ c ∈ w, isSpace c = false) →
    splitWSAux cur (w ++ rest) = splitWSAux (w.reverse ++ cur) rest := by
  induction w with
  | nil => intro cur rest _; simp
  | cons c cs ih =>
    intro cur rest hw
    have hc : isSpace c = false := hw c (List.mem_cons_self _ _)
    rw [List.cons_append, splitWSAux_cons_word hc,
      ih (c :: cur) rest fun d hd => hw d (List.mem_cons_of_mem _ hd)]
    simp

/-- Every word produced by `pySplit` is non-empty and whitespace-free. -/
theorem pySplit_words (l : Text) :
    ∀ w ∈ pySplit l, w ≠ [] ∧ ∀ c ∈ w, isSpace c = false :=
  splitWSAux_words l [] (by simp)

/-- Every character of a word of `pySplit l` comes from `l`. -/
theorem pySplit_subset (l : Text) : ∀ w ∈ pySplit l, ∀ c ∈ w, c ∈ l := by
  intro w hw c hc
  rcases splitWSAux_subset l [] w hw c hc with h | h
  · simp at h
  · exact h

theorem lstrip_decomp (l : Text) :
    ∃ t, (∀ c ∈ t, isSpace c = true) ∧ l = t ++ lstrip l :=
  ⟨l.takeWhile isSpace, fun _ hc => List.mem_takeWhile_imp hc,
    (List.takeWhile_append_dropWhile isSpace l).symm⟩

theorem rstrip_decomp (l : Text) :
    ∃ t, (∀ c ∈ t, isSpace c = true) ∧ l = rstrip l ++ t := by
  refine ⟨(l.reverse.takeWhile isSpace).reverse, ?_, ?_⟩
  · intro c hc
    exact List.mem_takeWhile_imp (List.mem_reverse.mp hc)
  · have h := List.takeWhile_append_dropWhile isSpace l.reverse
    calc l = l.reverse.reverse := (List.reverse_reverse l).symm
    _ = (l.reverse.takeWhile isSpace ++ l.reverse.dropWhile isSpace).reverse := by rw [h]
    _ = rstrip l ++ (l.reverse.takeWhile isSpace).reverse := by
          rw [List.reverse_append]; rfl

theorem pySplit_lstrip (l : Text) : pySplit (lstrip l) = pySplit l := by
  obtain ⟨t, ht, hdec⟩ := lstrip_decomp l
  conv_rhs => rw [hdec]
  exact (splitWSAux_space_pre t (lstrip l) ht).symm

theorem pySplit_rstrip (l : Text) : pySplit (rstrip l) = pySplit l := by
  obtain ⟨t, ht, hdec⟩ := rstrip_decomp l
  conv_rhs => rw [hdec]
  exact (splitWSAux_append_space (rstrip l) [] t ht).symm

theorem pySplit_strip (l : Text) : pySplit (strip l) = pySplit l := by
  rw [strip, pySplit_rstrip, pySplit_lstrip]

theorem joinWords_cons (w x : Text) (ws : List Text) :
    joinWords (w :: x :: ws) = w ++ ' ' :: joinWords (x :: ws) := by
  simp [joinWords]

/-- `str.split()` is a left inverse of `' '.join` on lists of non-empty,
whitespace-free words. -/
theorem pySplit_joinWords (ws : List Text)
    (h : ∀ w ∈ ws, w ≠ [] ∧ ∀ c ∈ w, isSpace c = false) :
    pySplit (joinWords ws) = ws := by
  induction ws with
  | nil => simp [joinWords, pySplit, splitWSAux]
  | cons w ws ih =>
    obtain ⟨hw, hwc⟩ := h w (List.mem_cons_self _ _)
    cases ws with
    | nil =>
      show pySplit (joinWords [w]) = [w]
      have h1 : joinWords [w] = w := rfl
      rw [h1]
      have h2 := splitWSAux_word_pre w [] [] hwc
      simp only [List.append_nil] at h2
      unfold pySplit
      rw [h2, splitWSAux_nil]
      cases hrev : w.reverse with
      | nil => exact absurd (by simpa using congrArg List.reverse hrev) hw
      | cons c r =>
        have hwrev : (c :: r).reverse = w := by rw [← hrev, List.reverse_reverse]
        simp only [List.isEmpty_cons, Bool.false_eq_true, if_false]
        rw [hwrev]
    | cons x xs =>
      rw [joinWords_cons]
      unfold pySplit
      rw [splitWSAux_word_pre w [] (' ' :: joinWords (x :: xs)) hwc, List.append_nil,
        splitWSAux_cons_space (by decide)]
      cases hrev : w.reverse with
      | nil => exact absurd (by simpa using congrArg List.reverse hrev) hw
      | cons c r =>
        have hwrev : (c :: r).reverse = w := by rw [← hrev, List.reverse_reverse]
        have hx := ih fun u hu => h u (List.mem_cons_of_mem _ hu)
        unfold pySplit at hx
        simp only [List.isEmpty_cons, Bool.false_eq_true, if_false]
        rw [hwrev, hx]

/-- Every character of `' '.join ws` is a space or comes from one of the
words. -/
theorem joinWords_mem (ws : List Text) (c : Char) (hc : c ∈ joinWords ws) :
    c = ' ' ∨ ∃ w ∈ ws, c ∈ w := by
  induction ws with
  | nil => simp [joinWords] at hc
  | cons w ws ih =>
    cases ws with
    | nil =>
      exact Or.inr ⟨w, List.mem_cons_self _ _, hc⟩
    | cons x xs =>
      rw [joinWords_cons] at hc
      rcases List.mem_append.mp hc with h | h
      · exact Or.inr ⟨w, List.mem_cons_self _ _, h⟩
      · rcases List.mem_cons.mp h with h | h
        · exact Or.inl h
        · rcases ih h with h | ⟨u, hu, hcu⟩
          · exact Or.inl h
          · exact Or.inr ⟨u, List.mem_cons_of_mem _ hu, hcu⟩

theorem joinWords_head (ws : List Text)
    (h : ∀ w ∈ ws, w ≠ [] ∧ ∀ c ∈ w, isSpace c = false) (hne : ws ≠ []) :
    ∃ c r, joinWords ws = c :: r ∧ isSpace c = false := by
  cases ws with
  | nil => exact absurd rfl hne
  | cons w ws =>
    obtain ⟨hw, hwc⟩ := h w (List.mem_cons_self _ _)
    cases hwe : w with
    | nil => exact absurd hwe hw
    | cons c r =>
      have hc : isSpace c = false := hwc c (hwe ▸ List.mem_cons_self _ _)
      cases ws with
      | nil => exact ⟨c, r, hwe ▸ rfl, hc⟩
      | cons x xs =>
        refine ⟨c, r ++ ' ' :: joinWords (x :: xs), ?_, hc⟩
        rw [joinWords_cons]
        simp

theorem joinWords_reverse_head (ws : List Text)
    (h : ∀ w ∈ ws, w ≠ [] ∧ ∀ c ∈ w, isSpace c = false) (hne : ws ≠ []) :
    ∃ c r, (joinWords ws).reverse = c :: r ∧ isSpace c = false := by
  induction ws with
  | nil => exact absurd rfl hne
  | cons w ws ih =>
    obtain ⟨hw, hwc⟩ := h w (List.mem_cons_self _ _)
    cases ws with
    | nil =>
      show ∃ c r, w.reverse = c :: r ∧ isSpace c = false
      cases hrev : w.reverse with
      | nil => exact absurd (by simpa using congrArg List.reverse hrev) hw
      | cons c r =>
        refine ⟨c, r, rfl, hwc c ?_⟩
        have : c ∈ w.reverse := hrev ▸ List.mem_cons_self _ _
        exact List.mem_reverse.mp this
    | cons x xs =>
      obtain ⟨c, r, hcr, hc⟩ :=
        ih (fun u hu => h u (List.mem_cons_of_mem _ hu)) (by simp)
      refine ⟨c, r ++ ' ' :: w.reverse, ?_, hc⟩
      rw [joinWords_cons, List.reverse_append, List.reverse_cons, hcr]
      simp

/-- `strip` is the identity on `' '.join` of non-empty, whitespace-free
words (such a join has no leading or trailing whitespace). -/
theorem strip_joinWords (ws : List Text)
    (h : ∀ w ∈ ws, w ≠ [] ∧ ∀ c ∈ w, isSpace c = false) :
    strip (joinWords ws) = joinWords ws := by
  by_cases hne : ws = []
  · subst hne; rfl
  · obtain ⟨c, r, hcr, hc⟩ := joinWords_head ws h hne
    have hl : lstrip (joinWords ws) = joinWords ws := by
      rw [hcr, lstrip, List.dropWhile_cons, hc]
      simp
    obtain ⟨c', r', hcr', hc'⟩ := joinWords_reverse_head ws h hne
    have hr : rstrip (joinWords ws) = joinWords ws := by
      rw [rstrip, hcr', List.dropWhile_cons, hc']
      simp [← hcr']
    rw [strip, hl, hr]

/-- `clean_text` with the final `strip` resolved away: the output is exactly
the space-join of the whitespace words of the URL-free, special-free text. -/
theorem clean_text_eq (l : Text) :
    clean_text l = joinWords (pySplit ((removeURLs l).filter keepChar)) := by
  unfold clean_text
  exact strip_joinWords _ (pySplit_words _)

/-! ### Lemmas about URL removal and the output character set -/

theorem mem_of_isPrefixOf {p l : Text} (h : p.isPrefixOf l) : ∀ c ∈ p, c ∈ l := by
  obtain ⟨t, ht⟩ := List.isPrefixOf_iff_prefix.mp h
  intro c hc
  rw [← ht]
  exact List.mem_append_left t hc

/-- The URL regex cannot match at the head of a colon-free text. -/
theorem matchUrlAt_none {l : Text} (h : ':' ∉ l) : matchUrlAt l = none := by
  have h1 : "https://".data.isPrefixOf l = false := by
    cases hp : "https://".data.isPrefixOf l
    · rfl
    · exact absurd (mem_of_isPrefixOf hp ':' (by decide)) h
  have h2 : "http://".data.isPrefixOf l = false := by
    cases hp : "http://".data.isPrefixOf l
    · rfl
    · exact absurd (mem_of_isPrefixOf hp ':' (by decide)) h
  simp [matchUrlAt, h1, h2]

theorem removeURLsAux_no_colon (fuel : Nat) :
    ∀ l : Text, ':' ∉ l → removeURLsAux fuel l = l := by
  induction fuel with
  | zero => intro l _; rfl
  | succ n ih =>
    intro l h
    cases l with
    | nil => rfl
    | cons c cs =>
      have hcs : ':' ∉ cs := fun hc => h (List.mem_cons_of_mem _ hc)
      simp [removeURLsAux, matchUrlAt_none h, ih cs hcs]

/-- URL removal is the identity on colon-free text (the regex needs the
literal `://`). -/
theorem removeURLs_no_colon {l : Text} (h : ':' ∉ l) : removeURLs l = l :=
  removeURLsAux_no_colon _ l h

/-- Every character of `clean_text`'s output is a word character
(letter, digit or underscore), a plain space, or one of `. ! ? -`. -/
theorem clean_text_chars (l : Text) : ∀ c ∈ clean_text l,
    isWordChar c = true ∨ c = ' ' ∨ c = '.' ∨ c = '!' ∨ c = '?' ∨ c = '-' := by
  intro c hc
  rw [clean_text_eq] at hc
  rcases joinWords_mem _ c hc with h | ⟨w, hw, hcw⟩
  · exact Or.inr (Or.inl h)
  · have hmem : c ∈ (removeURLs l).filter keepChar := pySplit_subset _ w hw c hcw
    have hkeep : keepChar c = true := (List.mem_filter.mp hmem).2
    have hnsp : isSpace c = false := (pySplit_words _ w hw).2 c hcw
    simp only [keepChar, hnsp, Bool.or_false, Bool.false_or, Bool.or_eq_true,
      decide_eq_true_eq] at hkeep
    tauto

theorem colon_not_mem_clean_text (l : Text) : ':' ∉ clean_text l := by
  intro h
  rcases clean_text_chars l ':' h with h | h | h | h | h | h
  · exact absurd h (by decide)
  all_goals exact absurd h (by decide)

theorem clean_text_filter_keep (l : Text) :
    (clean_text l).filter keepChar = clean_text l := by
  refine List.filter_eq_self.mpr fun a ha => ?_
  rcases clean_text_chars l a ha with h | h | h | h | h | h
  · simp [keepChar, h]
  all_goals subst h
  all_goals decide

/-- C10 — `clean_text` is idempotent: a second application removes no URL
(the first pass deleted every `:`), re-filters nothing, and re-normalizes
already-normalized whitespace. -/
theorem clean_text_idempotent (l : Text) :
    clean_text (clean_text l) = clean_text l := by
  have h1 : removeURLs (clean_text l) = clean_text l :=
    removeURLs_no_colon (colon_not_mem_clean_text l)
  show strip (joinWords (pySplit ((removeURLs (clean_text l)).filter keepChar)))
      = clean_text l
  rw [h1, clean_text_filter_keep]
  conv_lhs => rw [clean_text_eq l, pySplit_joinWords _ (pySplit_words _)]
  rw [clean_text_eq l]
  exact strip_joinWords _ (pySplit_words _)

/-- C4 — counterexample to the claimed output character set: Python `\w`
keeps the underscore, so `clean_text "a_b"` contains `_`, a character
outside {letters, digits, whitespace, `.`, `!`, `?`, `-`}. -/
theorem clean_text_claimed_charset_cex :
    '_' ∈ clean_text "a_b".data ∧
    (Char.isAlpha '_' || Char.isDigit '_' || isSpace '_' ||
      '_' = '.' || '_' = '!' || '_' = '?' || '_' = '-') = false := by
  decide

/-- C4 (amended) — after first removing URL-shaped substrings, `clean_text`
removes every character outside {letters, digits, underscore, whitespace,
`.`, `!`, `?`, `-`} (the underscore is kept because the source uses `\w`),
collapses consecutive whitespace to single spaces and trims: the output is
the single-space join of non-empty whitespace-free words, and every output
character is a word character, a space, or one of `. ! ? -`. -/
theorem clean_text_charset (l : Text) :
    (∀ c ∈ clean_text l,
        isWordChar c = true ∨ c = ' ' ∨ c = '.' ∨ c = '!' ∨ c = '?' ∨ c = '-') ∧
    ∃ ws, (∀ w ∈ ws, w ≠ [] ∧ ∀ c ∈ w, isSpace c = false) ∧
      clean_text l = joinWords ws :=
  ⟨clean_text_chars l,
    ⟨pySplit ((removeURLs l).filter keepChar), pySplit_words _, clean_text_eq l⟩⟩

/-- Witness for C4 (amended) at the concrete input `"a_b"` and its output
character `_`. -/
theorem clean_text_charset_witness :
    isWordChar '_' = true ∨ '_' = ' ' ∨ '_' = '.' ∨ '_' = '!' ∨ '_' = '?' ∨ '_' = '-' :=
  (clean_text_charset "a_b".data).1 '_' (by decide)

/-! ### Lemmas about the duplicate detector and the quality filter -/

theorem is_duplicate_of_mem {seen : List Text} {idea : Text}
    (h : fingerprint idea ∈ seen) : is_duplicate seen idea = (true, seen) := by
  simp [is_duplicate, h]

theorem is_duplicate_of_not_mem {seen : List Text} {idea : Text}
    (h : fingerprint idea ∉ seen) :
    is_duplicate seen idea = (false, fingerprint idea :: seen) := by
  simp [is_duplicate, h]

/-- `filter_idea` as one nested conditional. -/
theorem filter_idea_eq (seen : List Text) (idea : Text) :
    filter_idea seen idea =
      if countWords idea < MIN_WORD_COUNT ∨ MAX_WORD_COUNT < countWords idea then
        (false, seen)
      else if hasBlacklisted idea then (false, seen)
      else if fingerprint idea ∈ seen then (false, seen)
      else (true, fingerprint idea :: seen) := by
  by_cases hlo : countWords idea < MIN_WORD_COUNT
  · simp [filter_idea, hlo]
  · by_cases hhi : MAX_WORD_COUNT < countWords idea
    · simp [filter_idea, hlo, hhi]
    · by_cases h2 : hasBlacklisted idea = true
      · simp [filter_idea, hlo, hhi, h2]
      · by_cases h3 : fingerprint idea ∈ seen
        · simp [filter_idea, is_duplicate, hlo, hhi, h2, h3]
        · simp [filter_idea, is_duplicate, hlo, hhi, h2, h3]

/-- `passesContentChecks` is false exactly when the word count is out of
bounds or a blacklisted phrase occurs. -/
theorem passesContentChecks_false_iff (idea : Text) :
    passesContentChecks idea = false ↔
      (countWords idea < MIN_WORD_COUNT ∨ MAX_WORD_COUNT < countWords idea) ∨
        hasBlacklisted idea = true := by
  unfold passesContentChecks
  cases hb : hasBlacklisted idea <;>
    by_cases h1 : countWords idea < MIN_WORD_COUNT ∨ MAX_WORD_COUNT < countWords idea
  · rcases h1 with h | h <;> simp [h]
  · push_neg at h1
    simp [Nat.not_lt.mpr h1.1, Nat.not_lt.mpr h1.2]
  · rcases h1 with h | h <;> simp [h]
  · simp

/-- A content-check failure short-circuits `filter_idea` before the
duplicate check: the result is `false` and the seen set is returned
unchanged. -/
theorem filter_idea_content_reject (seen : List Text) (idea : Text)
    (h : passesContentChecks idea = false) : filter_idea seen idea = (false, seen) := by
  rw [filter_idea_eq]
  rcases (passesContentChecks_false_iff idea).mp h with h1 | h2
  · rw [if_pos h1]
  · by_cases h1 : countWords idea < MIN_WORD_COUNT ∨ MAX_WORD_COUNT < countWords idea
    · rw [if_pos h1]
    · rw [if_neg h1, if_pos h2]

/-- C2 — a candidate that fails the content criteria (word count out of
bounds or blacklisted phrase) is rejected with the seen set unchanged: the
fingerprint is not registered, so a repeat of the same rejected text is
again rejected by the filter (the call is deterministic in `(seen, idea)`). -/
theorem reject_without_registration (seen : List Text) (idea : Text)
    (h : passesContentChecks idea = false) : filter_idea seen idea = (false, seen) :=
  filter_idea_content_reject seen idea h

/-- Witness for C2: a text of 8 words containing the blacklisted phrase
"limited time" is rejected and the empty seen set stays empty. -/
theorem reject_without_registration_witness :
    passesContentChecks "this limited time deal is really great value".data = false ∧
    filter_idea [] "this limited time deal is really great value".data = (false, []) :=
  ⟨by decide, reject_without_registration [] _ (by decide)⟩

/-- C1 — counterexample to purity: `filter_idea` both mutates the
detector's seen set (a fresh set is non-empty after one passing call) and
consults it (the same input yields different results for different seen
sets). -/
theorem filter_purity_cex :
    (filter_idea [] "alpha beta gamma delta echo".data).2 ≠ [] ∧
    (filter_idea [fingerprint "alpha beta gamma delta echo".data]
        "alpha beta gamma delta echo".data).1 ≠
      (filter_idea [] "alpha beta gamma delta echo".data).1 := by
  decide

/-- C1 (amended) — `filter_idea` is not pure: it embeds the duplicate
detector as its final check.  For a candidate passing the content checks it
consults the seen set and either registers the fingerprint (accepting) or
rejects a seen fingerprint; only a candidate failing the content checks
leaves the set untouched. -/
theorem filter_consults_detector (seen : List Text) (idea : Text) :
    (passesContentChecks idea = true → fingerprint idea ∉ seen →
        filter_idea seen idea = (true, fingerprint idea :: seen)) ∧
    (passesContentChecks idea = true → fingerprint idea ∈ seen →
        filter_idea seen idea = (false, seen)) ∧
    (passesContentChecks idea = false → filter_idea seen idea = (false, seen)) := by
  have hok : passesContentChecks idea = true →
      ¬(countWords idea < MIN_WORD_COUNT ∨ MAX_WORD_COUNT < countWords idea) ∧
        hasBlacklisted idea = false := by
    intro hp
    by_contra hcon
    rw [← Bool.not_eq_false] at hp
    refine hp ((passesContentChecks_false_iff idea).mpr ?_)
    rcases not_and_or.mp hcon with h | h
    · exact Or.inl (not_not.mp h)
    · exact Or.inr (by simpa using h)
  refine ⟨?_, ?_, filter_idea_content_reject seen idea⟩
  · intro hp hmem
    obtain ⟨h1, h2⟩ := hok hp
    rw [filter_idea_eq, if_neg h1, if_neg (by simp [h2]), if_neg hmem]
  · intro hp hmem
    obtain ⟨h1, h2⟩ := hok hp
    rw [filter_idea_eq, if_neg h1, if_neg (by simp [h2]), if_pos hmem]

/-- Witness for C1 (amended): a fresh 5-word candidate is accepted and its
fingerprint is registered. -/
theorem filter_consults_detector_witness :
    filter_idea [] "alpha beta gamma delta echo".data =
      (true, [fingerprint "alpha beta gamma delta echo".data]) :=
  (filter_consults_detector [] "alpha beta gamma delta echo".data).1
    (by decide) (by decide)

/-- C5 — first-seen-wins: on a fresh detector the first call returns
`false` and records the case-insensitive fingerprint; membership of a
fingerprint is preserved by every later call, and any call whose text has a
fingerprint already in the set returns `true`. -/
theorem is_duplicate_first_seen_wins (t u v : Text) (seen : List Text) :
    is_duplicate [] t = (false, [fingerprint t]) ∧
    (fingerprint u ∈ seen → (is_duplicate seen u).1 = true) ∧
    (fingerprint v ∈ seen → fingerprint v ∈ (is_duplicate seen u).2) := by
  refine ⟨by simp [is_duplicate], fun h => by simp [is_duplicate, h], fun h => ?_⟩
  unfold is_duplicate
  by_cases hm : fingerprint u ∈ seen <;> simp [hm, h]

/-- Witness for C5 at `"Build an app"` and its upper-case variant. -/
theorem is_duplicate_first_seen_wins_witness :
    is_duplicate [] "Build an app".data = (false, [fingerprint "Build an app".data]) ∧
    (is_duplicate [fingerprint "Build an app".data] "BUILD AN APP".data).1 = true :=
  ⟨(is_duplicate_first_seen_wins "Build an app".data "BUILD AN APP".data "x".data
      [fingerprint "Build an app".data]).1,
   (is_duplicate_first_seen_wins "Build an app".data "BUILD AN APP".data "x".data
      [fingerprint "Build an app".data]).2.1 (by decide)⟩

/-- C6 — the word-count bounds of the quality filter are inclusive: with no
blacklisted phrase and an unseen fingerprint, exactly `MIN_WORD_COUNT` (5)
or `MAX_WORD_COUNT` (200) words pass, while `MIN_WORD_COUNT - 1` or
`MAX_WORD_COUNT + 1` words fail regardless of the remaining criteria. -/
theorem filter_word_count_boundary (seen : List Text) (t : Text) :
    (countWords t = MIN_WORD_COUNT → hasBlacklisted t = false →
        fingerprint t ∉ seen → (filter_idea seen t).1 = true) ∧
    (countWords t = MIN_WORD_COUNT - 1 → (filter_idea seen t).1 = false) ∧
    (countWords t = MAX_WORD_COUNT → hasBlacklisted t = false →
        fingerprint t ∉ seen → (filter_idea seen t).1 = true) ∧
    (countWords t = MAX_WORD_COUNT + 1 → (filter_idea seen t).1 = false) := by
  rw [filter_idea_eq]
  unfold MIN_WORD_COUNT MAX_WORD_COUNT
  refine ⟨fun h hb hm => ?_, fun h => ?_, fun h hb hm => ?_, fun h => ?_⟩
  · rw [if_neg (by omega), if_neg (by simp [hb]), if_neg hm]
  · rw [if_pos (by omega)]
  · rw [if_neg (by omega), if_neg (by simp [hb]), if_neg hm]
  · rw [if_pos (by omega)]

/-- `n` copies of the word "zz" separated by single spaces. -/
def repWords : Nat → Text
  | 0 => []
  | 1 => ['z', 'z']
  | n + 1 => 'z' :: 'z' :: ' ' :: repWords n

set_option maxRecDepth 100000 in
/-- Witness for C6 at concrete texts of 5, 4, 200 and 201 words. -/
theorem filter_word_count_boundary_witness :
    (filter_idea [] (repWords 5)).1 = true ∧
    (filter_idea [] (repWords 4)).1 = false ∧
    (filter_idea [] (repWords 200)).1 = true ∧
    (filter_idea [] (repWords 201)).1 = false :=
  ⟨(filter_word_count_boundary [] (repWords 5)).1 (by decide) (by decide) (by decide),
   (filter_word_count_boundary [] (repWords 4)).2.1 (by decide),
   (filter_word_count_boundary [] (repWords 200)).2.2.1 (by decide) (by decide) (by decide),
   (filter_word_count_boundary [] (repWords 201)).2.2.2 (by decide)⟩

/-! ### The categorizer and the sentiment scorer -/

/-- C7 — `categorize_idea` emits, without duplicates, exactly the matching
categories in the taxonomy's declared order (its result for a matching text
is the order-preserving filter of the taxonomy, a sublist of the declared
name order), and yields exactly `["general"]` when no keyword matches. -/
theorem categorize_spec (idea : Text) :
    (categorize_idea idea).Nodup ∧
    ((∀ p ∈ IDEA_CATEGORIES, categoryMatches idea p = false) →
        categorize_idea idea = ["general"]) ∧
    ((∃ p ∈ IDEA_CATEGORIES, categoryMatches idea p = true) →
        categorize_idea idea =
          (IDEA_CATEGORIES.filter (categoryMatches idea)).map Prod.fst) ∧
    List.Sublist ((IDEA_CATEGORIES.filter (categoryMatches idea)).map Prod.fst)
      (IDEA_CATEGORIES.map Prod.fst) := by
  have hnames : (IDEA_CATEGORIES.map Prod.fst).Nodup := by decide
  have hsub : List.Sublist
      ((IDEA_CATEGORIES.filter (categoryMatches idea)).map Prod.fst)
      (IDEA_CATEGORIES.map Prod.fst) :=
    (List.filter_sublist _).map Prod.fst
  have hnody : ((IDEA_CATEGORIES.filter (categoryMatches idea)).map Prod.fst).Nodup :=
    hnames.sublist hsub
  refine ⟨?_, ?_, ?_, hsub⟩
  · unfold categorize_idea
    cases he : (IDEA_CATEGORIES.filter (categoryMatches idea)).isEmpty
    · simpa [he] using hnody
    · simp [he]
  · intro h
    have hf : IDEA_CATEGORIES.filter (categoryMatches idea) = [] :=
      List.filter_eq_nil_iff.mpr fun a ha => by simp [h a ha]
    simp [categorize_idea, hf]
  · rintro ⟨p, hp, hm⟩
    have hne : IDEA_CATEGORIES.filter (categoryMatches idea) ≠ [] := by
      intro hf
      have : p ∈ IDEA_CATEGORIES.filter (categoryMatches idea) :=
        List.mem_filter.mpr ⟨hp, hm⟩
      rw [hf] at this
      simp at this
    simp [categorize_idea, List.isEmpty_iff, hne]

/-- Witness for C7: a text matching no taxonomy keyword yields exactly
`["general"]`. -/
theorem categorize_spec_witness :
    categorize_idea "xyz qrs".data = ["general"] :=
  (categorize_spec "xyz qrs".data).2.1 (by decide)

/-- C8 — the sentiment scorer never propagates a failure of the underlying
estimator: on any estimator error it returns `0`, and whenever the
estimator's successful values lie in `[-1, 1]` (the polarity contract of
the black-box estimator) the result lies in `[-1, 1]`. -/
theorem analyze_sentiment_fail_open (estimator : Text → Except Unit Rat) (idea : Text) :
    (∀ e, estimator idea = Except.error e → analyze_sentiment estimator idea = 0) ∧
    ((∀ p, estimator idea = Except.ok p → -1 ≤ p ∧ p ≤ 1) →
        -1 ≤ analyze_sentiment estimator idea ∧ analyze_sentiment estimator idea ≤ 1) := by
  constructor
  · intro e he
    simp [analyze_sentiment, he]
  · intro h
    unfold analyze_sentiment
    cases hest : estimator idea with
    | ok p => exact h p hest
    | error e => norm_num

/-- An estimator that always fails, used to witness the fail-open branch. -/
def failEstimator : Text → Except Unit Rat := fun _ => Except.error ()

/-- Witness for C8: a failing estimator yields `0`; a constant in-range
estimator yields a value in `[-1, 1]`. -/
theorem analyze_sentiment_fail_open_witness :
    analyze_sentiment failEstimator [] = 0 ∧
    (-1 ≤ analyze_sentiment constEstimator [] ∧ analyze_sentiment constEstimator [] ≤ 1) :=
  ⟨(analyze_sentiment_fail_open failEstimator []).1 () rfl,
   (analyze_sentiment_fail_open constEstimator []).2 fun p hp => by
     have hp0 : p = 0 := by simpa [constEstimator] using hp.symm
     subst hp0
     norm_num⟩

/-! ### The pipeline -/

/-- C3 — counterexample to end-to-end scenario 2: on
`["Build an app", "build an  app!!"]` the pipeline returns 0 records, not
1, and the two normalized texts do not even share a fingerprint. -/
theorem scenario2_cex :
    (process_ideas constEstimator
        ["Build an app".data, "build an  app!!".data] "reddit" []).1.length = 0 ∧
    fingerprint (clean_text "Build an app".data) ≠
      fingerprint (clean_text "build an  app!!".data) := by
  decide

/-- C3 (amended) — on `["Build an app", "build an  app!!"]` both items are
rejected by the minimum word count (each normalizes to 3 words, below
`MIN_WORD_COUNT = 5`), so no fingerprint is registered and the output has
exactly 0 records; the second item is not dropped as a duplicate — the
normalized texts differ (`!!` is retained), so their fingerprints differ. -/
theorem scenario2_amended :
    process_ideas constEstimator
        ["Build an app".data, "build an  app!!".data] "reddit" [] = ([], []) ∧
    countWords (clean_text "Build an app".data) = 3 ∧
    countWords (clean_text "build an  app!!".data) = 3 ∧
    fingerprint (clean_text "Build an app".data) ≠
      fingerprint (clean_text "build an  app!!".data) := by
  decide

theorem filter_idea_true_inv {seen : List Text} {t : Text}
    (h : (filter_idea seen t).1 = true) :
    MIN_WORD_COUNT ≤ countWords t ∧ countWords t ≤ MAX_WORD_COUNT ∧
      hasBlacklisted t = false ∧ fingerprint t ∉ seen ∧
      filter_idea seen t = (true, fingerprint t :: seen) := by
  rw [filter_idea_eq] at h
  rw [filter_idea_eq]
  split at h
  next h1 => simp at h
  next h1 =>
    split at h
    next h2 => simp at h
    next h2 =>
      split at h
      next h3 => simp at h
      next h3 =>
        refine ⟨Nat.not_lt.mp fun hh => h1 (Or.inl hh),
          Nat.not_lt.mp fun hh => h1 (Or.inr hh), by simpa using h2, h3, ?_⟩
        rw [if_neg h1, if_neg h2, if_neg h3]

theorem filter_idea_false_snd {seen : List Text} {t : Text}
    (h : (filter_idea seen t).1 = false) : (filter_idea seen t).2 = seen := by
  rw [filter_idea_eq] at h
  rw [filter_idea_eq]
  split at h
  next h1 => rw [if_pos h1]
  next h1 =>
    rw [if_neg h1]
    split at h
    next h2 => rw [if_pos h2]
    next h2 =>
      rw [if_neg h2]
      split at h
      next h3 => rw [if_pos h3]
      next h3 => simp at h

/-- C9 — output-record invariant of `process_ideas` over the lifetime of
one processor instance: starting from any seen set, every emitted record
has its word count within bounds, no blacklisted phrase, `word_count` equal
to the recount of its own text, and a fingerprint that was unseen before
the call and is registered after it; emitted fingerprints are pairwise
distinct, and the seen set only grows (so records of successive calls on
the same instance are also pairwise distinct). -/
theorem process_ideas_invariant (estimator : Text → Except Unit Rat)
    (ideas : List Text) (source : String) (seen : List Text) :
    (∀ r ∈ (process_ideas estimator ideas source seen).1,
        MIN_WORD_COUNT ≤ r.word_count ∧ r.word_count ≤ MAX_WORD_COUNT ∧
        hasBlacklisted r.text = false ∧ r.word_count = countWords r.text ∧
        fingerprint r.text ∉ seen ∧
        fingerprint r.text ∈ (process_ideas estimator ideas source seen).2) ∧
    ((process_ideas estimator ideas source seen).1.map
        fun r => fingerprint r.text).Nodup ∧
    (∀ x ∈ seen, x ∈ (process_ideas estimator ideas source seen).2) := by
  induction ideas generalizing seen with
  | nil => simp [process_ideas]
  | cons idea rest ih =>
    have heq : process_ideas estimator (idea :: rest) source seen =
        if (filter_idea seen (clean_text idea)).1 then
          ({ text := clean_text idea
             source := source
             categories := categorize_idea (clean_text idea)
             sentiment := analyze_sentiment estimator (clean_text idea)
             word_count := countWords (clean_text idea) } ::
            (process_ideas estimator rest source
              (filter_idea seen (clean_text idea)).2).1,
           (process_ideas estimator rest source
              (filter_idea seen (clean_text idea)).2).2)
        else process_ideas estimator rest source
          (filter_idea seen (clean_text idea)).2 := rfl
    cases hflt : (filter_idea seen (clean_text idea)).1
    · rw [heq, if_neg (by simp [hflt]), filter_idea_false_snd hflt]
      exact ih seen
    · obtain ⟨hb1, hb2, hb3, hb4, hb5⟩ := filter_idea_true_inv hflt
      rw [heq, if_pos hflt, hb5]
      dsimp only
      obtain ⟨ih1, ih2, ih3⟩ := ih (fingerprint (clean_text idea) :: seen)
      refine ⟨?_, ?_, fun x hx => ih3 x (List.mem_cons_of_mem _ hx)⟩
      · intro r hr
        rcases List.mem_cons.mp hr with hr | hr
        · subst hr
          exact ⟨hb1, hb2, hb3, rfl, hb4, ih3 _ (List.mem_cons_self _ _)⟩
        · obtain ⟨c1, c2, c3, c4, c5, c6⟩ := ih1 r hr
          exact ⟨c1, c2, c3, c4, fun hm => c5 (List.mem_cons_of_mem _ hm), c6⟩
      · simp only [List.map_cons, List.nodup_cons]
        refine ⟨?_, ih2⟩
        intro hmem
        rcases List.mem_map.mp hmem with ⟨r, hr, hfp⟩
        have hnot := (ih1 r hr).2.2.2.2.1
        exact hnot (by rw [hfp]; exact List.mem_cons_self _ _)

/-- A sample output record, used to witness C9 concretely. -/
def sampleRecord : ProcessedIdea :=
  { text := "alpha beta gamma delta echo".data
    source := "reddit"
    categories := ["general"]
    sentiment := 0
    word_count := 5 }

/-- Witness for C9: on a fresh seen set and a concrete 5-word candidate,
the emitted record satisfies the full invariant. -/
theorem process_ideas_invariant_witness :
    MIN_WORD_COUNT ≤ sampleRecord.word_count ∧
    sampleRecord.word_count ≤ MAX_WORD_COUNT ∧
    hasBlacklisted sampleRecord.text = false ∧
    sampleRecord.word_count = countWords sampleRecord.text ∧
    fingerprint sampleRecord.text ∉ ([] : List Text) ∧
    fingerprint sampleRecord.text ∈
      (process_ideas constEstimator
        ["alpha beta gamma delta echo".data] "reddit" []).2 :=
  (process_ideas_invariant constEstimator
    ["alpha beta gamma delta echo".data] "reddit" []).1 sampleRecord (by decide)

end SparkScraper
